import Mathlib

/-!
Shallow embedding of `src/collection.rs` (crate `mdmu`): the `Entity` record
with its merge algorithm and the `Collection` graph store (dense node array,
adjacency lists, URL index).

Modelling choices:
* `Url`, `Name` and `Label` are text wrappers compared by contained text; we
  use `String` directly.
* `time::Date` is a totally ordered value; we model it as `Nat`.
* Rust `HashSet` becomes `Finset` (unordered, no duplicates).
* Rust `HashMap<Url, Id>` is modelled observationally: inserts cons a binding
  onto an association list and lookup returns the most recent binding, which
  matches `HashMap::insert` overwriting the old value.
* `Id` is a `usize` newtype; we use `Nat`.
* Panics (out-of-bounds indexing, `assert_eq!`) are modelled in the small-step
  semantics `step`, which returns `none` exactly when the Rust call panics.
-/


/-- An `Entity` is a page in the collection (struct `Entity`). -/
structure Entity where
  url : String
  created_at : Nat
  updated_at : Finset Nat
  names : Finset String
  labels : Finset String
deriving DecidableEq

namespace Entity

/-- `Entity::new`: fresh observation, empty `updated_at`, names from the
optional name. -/
def new (url : String) (created_at : Nat) (maybe_name : Option String)
    (labels : Finset String) : Entity :=
  { url := url, created_at := created_at, updated_at := ∅,
    names := maybe_name.toFinset, labels := labels }

/-- `Entity::update`: earliest-date tracking plus set union of names/labels. -/
def update (e : Entity) (updated_at : Nat) (names : Finset String)
    (labels : Finset String) : Entity :=
  if updated_at < e.created_at then
    { url := e.url, created_at := updated_at,
      updated_at := insert e.created_at e.updated_at,
      names := e.names ∪ names, labels := e.labels ∪ labels }
  else
    { url := e.url, created_at := e.created_at,
      updated_at := insert updated_at e.updated_at,
      names := e.names ∪ names, labels := e.labels ∪ labels }

/-- `Entity::merge`: `update(other.created_at, other.names, other.labels)`. -/
def merge (e other : Entity) : Entity :=
  e.update other.created_at other.names other.labels

end Entity

/-- Replace the element at index `i` by `f` of it; out of range is a no-op
(the panic of Rust's indexing is handled in `step`). -/
def modifyAt {α : Type} (f : α → α) : Nat → List α → List α
  | _, [] => []
  | 0, x :: xs => f x :: xs
  | n + 1, x :: xs => x :: modifyAt f n xs

/-- Lookup in the URL index: the most recently inserted binding wins,
matching `HashMap` lookup after overwriting inserts. -/
def lookupUrl : List (String × Nat) → String → Option Nat
  | [], _ => none
  | (k, v) :: rest, u => if k = u then some v else lookupUrl rest u

/-- A collection of entities (struct `Collection`): parallel dense arrays of
nodes and adjacency lists, plus the URL index. -/
structure Collection where
  nodes : List Entity
  edges : List (List Nat)
  urls : List (String × Nat)
deriving DecidableEq

namespace Collection

/-- `Collection::new`. -/
def new : Collection := { nodes := [], edges := [], urls := [] }

/-- `Collection::len` returns `nodes.len()`; its `assert_eq!` is modelled by
`lenOk` and by the guards in `step`. -/
def len (c : Collection) : Nat := c.nodes.length

/-- The `assert_eq!(nodes.len(), edges.len())` checked by `len` and `add`.
Note `is_empty` checks something else: see `is_empty` below. -/
def lenOk (c : Collection) : Prop := c.nodes.length = c.edges.length

/-- `Collection::is_empty`: computes `nodes.is_empty()`, then runs
`assert!(self.edges.is_empty())` — unconditionally, not as a consistency
check against the nodes — so the call panics (`none`) on every collection
whose `edges` array is non-empty, and only ever returns on an empty one. -/
def is_empty (c : Collection) : Option Bool :=
  if c.edges.isEmpty then some c.nodes.isEmpty else none

/-- `Collection::id`. -/
def id (c : Collection) (u : String) : Option Nat := lookupUrl c.urls u

/-- `Collection::contains`. -/
def contains (c : Collection) (u : String) : Bool := (Collection.id c u).isSome

/-- `Collection::add`: allocate the next dense Id, push the entity and an
empty adjacency list, record the URL binding; returns the collection and
the returned Id. -/
def add (c : Collection) (e : Entity) : Collection × Nat :=
  let i := c.nodes.length
  ({ nodes := c.nodes ++ [e], edges := c.edges ++ [[]],
     urls := (e.url, i) :: c.urls }, i)

/-- `Collection::merge`: fold into the existing node when the URL is known,
else delegate to `add`. -/
def merge (c : Collection) (other : Entity) : Collection × Nat :=
  match lookupUrl c.urls other.url with
  | some i =>
      ({ nodes := modifyAt (fun e => e.merge other) i c.nodes,
         edges := c.edges, urls := c.urls }, i)
  | none => c.add other

/-- `Collection::add_edge`: append `to` to `edges[from]` unless present. -/
def add_edge (c : Collection) (f t : Nat) : Collection :=
  { nodes := c.nodes,
    edges := modifyAt (fun l => if t ∈ l then l else l ++ [t]) f c.edges,
    urls := c.urls }

/-- `Collection::edges`: the adjacency list of a node (named `edgesAt` since
`edges` is the field it reads). -/
def edgesAt (c : Collection) (i : Nat) : List Nat := c.edges.getD i []

end Collection

/-- One public mutating call on the collection. `setEntity` stands for a
caller writing through `entity_mut`. -/
inductive Op where
  | add (e : Entity)
  | merge (e : Entity)
  | add_edge (f t : Nat)
  | setEntity (i : Nat) (e : Entity)

/-- One call; `none` exactly when the Rust call panics: `add` fails its
`assert_eq!` when the arrays disagree, repeat-sight `merge` and `add_edge`
index with the Id (`nodes[i]` / `edges[from]`), `entity_mut` indexes with
`i`.  Note `add_edge` never checks `to`. -/
def step (c : Collection) : Op → Option Collection
  | .add e => if c.nodes.length = c.edges.length then some (c.add e).1 else none
  | .merge e =>
      match lookupUrl c.urls e.url with
      | some i => if i < c.nodes.length then some (c.merge e).1 else none
      | none =>
          if c.nodes.length = c.edges.length then some (c.add e).1 else none
  | .add_edge f t =>
      if f < c.edges.length then some (c.add_edge f t) else none
  | .setEntity i e =>
      if i < c.nodes.length then
        some { nodes := c.nodes.set i e, edges := c.edges, urls := c.urls }
      else none

/-- Run a sequence of public operations; `none` when any call panics. -/
def runOps (c : Collection) : List Op → Option Collection
  | [] => some c
  | op :: ops =>
      match step c op with
      | some c' => runOps c' ops
      | none => none

/-- Reachable from `Collection::new()` by public operations that complete
without panicking. -/
def Reachable (c : Collection) : Prop :=
  ∃ ops, runOps Collection.new ops = some c

/-- Variant step in which every `add_edge` call is made with a `to` that is a
valid Id of the collection (`to < len(nodes)`); other calls are unchanged. -/
def stepV (c : Collection) : Op → Option Collection
  | .add_edge f t =>
      if f < c.edges.length ∧ t < c.nodes.length then some (c.add_edge f t)
      else none
  | op => step c op

/-- Run under `stepV`. -/
def runV (c : Collection) : List Op → Option Collection
  | [] => some c
  | op :: ops =>
      match stepV c op with
      | some c' => runV c' ops
      | none => none

/-- Reachable using only in-range `to` arguments to `add_edge`. -/
def ReachableV (c : Collection) : Prop :=
  ∃ ops, runV Collection.new ops = some c

/-- The Ids a call returns when it allocates a node: `add` always allocates,
`merge` allocates exactly on first sight of the URL. -/
def allocIds (c : Collection) : Op → List Nat
  | .add _ => [c.nodes.length]
  | .merge e =>
      match lookupUrl c.urls e.url with
      | none => [c.nodes.length]
      | some _ => []
  | _ => []

/-- Run a sequence of operations collecting the Ids returned by `add` and
first-sight `merge` calls, in call order. -/
def runAlloc (c : Collection) : List Op → Option (Collection × List Nat)
  | [] => some (c, [])
  | op :: ops =>
      match step c op with
      | none => none
      | some c' =>
          match runAlloc c' ops with
          | none => none
          | some (cf, ids) => some (cf, allocIds c op ++ ids)

/-- One observation fed to the store: a date, the names seen, the labels
seen. -/
abbrev Obs := Nat × Finset String × Finset String

/-- The entity a collaborator builds from one fresh observation of `u`
(empty `updated_at`, as produced by `Entity::new`). -/
def obsEntity (u : String) (o : Obs) : Entity :=
  { url := u, created_at := o.1, updated_at := ∅,
    names := o.2.1, labels := o.2.2 }

/-- Fold a sequence of observations into an entity via `Entity::update`. -/
def updFold (e : Entity) (os : List Obs) : Entity :=
  os.foldl (fun e o => e.update o.1 o.2.1 o.2.2) e

/-- Merge a same-URL observation sequence into a collection via
`Collection::merge`. -/
def mergeAll (c : Collection) (u : String) (os : List Obs) : Collection :=
  os.foldl (fun c o => (c.merge (obsEntity u o)).1) c

/-- Minimum of `ca :: ds`, as the merge loop computes it. -/
def minD (ca : Nat) (ds : List Nat) : Nat := ds.foldl min ca

/-- Number of occurrences of a date in a list. -/
def countD (x : Nat) : List Nat → Nat
  | [] => 0
  | d :: ds => (if d = x then 1 else 0) + countD x ds

/-- What `Entity.update` over dates `ds` adds to `updated_at` of an entity
whose `created_at` is `ca`: every observed date except the overall minimum,
plus the minimum itself exactly when it is observed at least twice. -/
def uaGain (ca : Nat) (ds : List Nat) : Finset Nat :=
  if 2 ≤ countD (minD ca ds) (ca :: ds) then (ca :: ds).toFinset
  else (ca :: ds).toFinset.erase (minD ca ds)

/-- Union of all names across observations. -/
def namesUnion (os : List Obs) : Finset String :=
  os.foldr (fun o acc => o.2.1 ∪ acc) ∅

/-- Union of all labels across observations. -/
def labelsUnion (os : List Obs) : Finset String :=
  os.foldr (fun o acc => o.2.2 ∪ acc) ∅

/-- The adjacency-list invariant claimed by the spec: every target Id is in
range and no list holds a duplicate. -/
def AdjInv (c : Collection) : Prop :=
  ∀ l ∈ c.edges, l.Nodup ∧ ∀ j ∈ l, j < c.nodes.length

/-- A sample entity used for concrete runs. -/
def entA : Entity :=
  { url := "a", created_at := 0, updated_at := ∅, names := ∅, labels := ∅ }

/-- A second sample entity with a different URL. -/
def entB : Entity :=
  { url := "b", created_at := 1, updated_at := ∅, names := ∅, labels := ∅ }

/-- A one-node collection, the result of `add`-ing `entA` to an empty one. -/
def cOne : Collection :=
  { nodes := [entA], edges := [[]], urls := [("a", 0)] }

/-! ### Helper lemmas about `modifyAt` and `lookupUrl` -/

theorem modifyAt_length {α : Type} (f : α → α) (i : Nat) (l : List α) :
    (modifyAt f i l).length = l.length := by
  induction l generalizing i with
  | nil => cases i <;> rfl
  | cons x xs ih =>
    cases i with
    | zero => rfl
    | succ n => simpa [modifyAt] using ih n

theorem modifyAt_getElem? {α : Type} (f : α → α) (i j : Nat) (l : List α) :
    (modifyAt f i l)[j]? = if i = j then (l[j]?).map f else l[j]? := by
  induction l generalizing i j with
  | nil => simp [modifyAt]
  | cons x xs ih =>
    cases i with
    | zero =>
      cases j with
      | zero => simp [modifyAt]
      | succ m => simp [modifyAt]
    | succ n =>
      cases j with
      | zero => simp [modifyAt]
      | succ m => simpa [modifyAt] using ih n m

theorem modifyAt_eraseIdx {α : Type} (f : α → α) (i : Nat) (l : List α) :
    (modifyAt f i l).eraseIdx i = l.eraseIdx i := by
  induction l generalizing i with
  | nil => cases i <;> rfl
  | cons x xs ih =>
    cases i with
    | zero => rfl
    | succ n => simpa [modifyAt, List.eraseIdx] using ih n

theorem mem_modifyAt {α : Type} {f : α → α} {i : Nat} {l : List α} {x : α}
    (h : x ∈ modifyAt f i l) : x ∈ l ∨ ∃ y, y ∈ l ∧ x = f y := by
  induction l generalizing i with
  | nil => simp [modifyAt] at h
  | cons z zs ih =>
    cases i with
    | zero =>
      rcases List.mem_cons.mp h with h' | h'
      · exact Or.inr ⟨z, List.mem_cons_self z zs, h'⟩
      · exact Or.inl (List.mem_cons_of_mem z h')
    | succ n =>
      rcases List.mem_cons.mp h with h' | h'
      · exact Or.inl (h' ▸ List.mem_cons_self z zs)
      · rcases ih h' with h'' | ⟨y, hy, hxy⟩
        · exact Or.inl (List.mem_cons_of_mem z h'')
        · exact Or.inr ⟨y, List.mem_cons_of_mem z hy, hxy⟩

theorem modifyAt_eq_self {α : Type} {f : α → α} {i : Nat} {l : List α}
    (h : ∀ x, l[i]? = some x → f x = x) : modifyAt f i l = l := by
  induction l generalizing i with
  | nil => cases i <;> rfl
  | cons x xs ih =>
    cases i with
    | zero => simp [modifyAt, h x (by simp)]
    | succ n =>
      simpa [modifyAt] using ih (fun y hy => h y (by simpa using hy))

theorem lookupUrl_cons_self (u : String) (i : Nat) (rest : List (String × Nat)) :
    lookupUrl ((u, i) :: rest) u = some i := by
  simp [lookupUrl]

theorem getD_eq_getElem? {α : Type} (l : List α) (i : Nat) (d : α) :
    l.getD i d = (l[i]?).getD d := by
  simp [List.getD]

theorem edgesAt_eq {c : Collection} {i : Nat} (h : i < c.edges.length) :
    c.edgesAt i = c.edges[i] := by
  simp [Collection.edgesAt, getD_eq_getElem?, List.getElem?_eq_getElem h]

theorem add_edge_edgesAt_self (c : Collection) (f t : Nat)
    (h : f < c.edges.length) :
    (c.add_edge f t).edgesAt f =
      if t ∈ c.edgesAt f then c.edgesAt f else c.edgesAt f ++ [t] := by
  simp only [Collection.add_edge, Collection.edgesAt, getD_eq_getElem?,
    modifyAt_getElem?, if_pos rfl]
  rw [List.getElem?_eq_getElem h]
  simp

theorem mem_edgesAt_add_edge (c : Collection) (f t : Nat)
    (h : f < c.edges.length) : t ∈ (c.add_edge f t).edgesAt f := by
  rw [add_edge_edgesAt_self c f t h]
  split
  · assumption
  · simp

/-- C3: counterexample. On a one-node collection, `add_edge(0, 5)` with the
nonexistent Id 5 completes without panicking (the run returns `some`) and
records the dangling edge `5` in the adjacency list of node 0, contradicting
the claim that the call aborts and records nothing. -/
theorem c3_counterexample :
    runOps Collection.new [Op.add entA, Op.add_edge 0 5] =
      some { nodes := [entA], edges := [[5]], urls := [("a", 0)] } ∧
    5 ∈ Collection.edgesAt
      { nodes := [entA], edges := [[5]], urls := [("a", 0)] } 0 := by
  exact ⟨by decide, by decide⟩

/-- C3 (amended): `add_edge(from, to)` panics exactly when `from` is out of
range (it indexes `edges[from]`); when `from` is valid the call succeeds for
every `to` — the code never checks `to` — and afterwards `to` is present in
`from`'s adjacency list. -/
theorem c3_amended (c : Collection) (f t : Nat) (h : f < c.edges.length) :
    (∀ f' t', c.edges.length ≤ f' → step c (Op.add_edge f' t') = none) ∧
    step c (Op.add_edge f t) = some (c.add_edge f t) ∧
    t ∈ (c.add_edge f t).edgesAt f := by
  refine ⟨?_, ?_, mem_edgesAt_add_edge c f t h⟩
  · intro f' t' h'
    simp [step, Nat.not_lt_of_le h']
  · simp [step, h]

/-- C3 (amended) witness at a concrete input: one node, `from = 0`,
invalid `to = 5`. -/
theorem c3_amended_witness :
    (∀ f' t', cOne.edges.length ≤ f' → step cOne (Op.add_edge f' t') = none) ∧
    step cOne (Op.add_edge 0 5) = some (cOne.add_edge 0 5) ∧
    5 ∈ (cOne.add_edge 0 5).edgesAt 0 :=
  c3_amended cOne 0 5 (by decide)

/-- C5: for valid Ids `a` and `b` (with `a`'s adjacency list duplicate-free,
as it is in every reachable collection), a second `add_edge(a, b)` call is a
no-op on the whole collection state, and after the first call `b` occurs in
`a`'s adjacency list exactly once. -/
theorem c5_add_edge_idempotent (c : Collection) (a b : Nat)
    (ha : a < c.edges.length) (hb : b < c.nodes.length)
    (hnd : (c.edgesAt a).Nodup) :
    (c.add_edge a b).add_edge a b = c.add_edge a b ∧
    ((c.add_edge a b).edgesAt a).count b = 1 := by
  constructor
  · have key : modifyAt (fun l => if b ∈ l then l else l ++ [b]) a
        (modifyAt (fun l => if b ∈ l then l else l ++ [b]) a c.edges) =
        modifyAt (fun l => if b ∈ l then l else l ++ [b]) a c.edges := by
      apply modifyAt_eq_self
      intro x hx
      rw [modifyAt_getElem?, if_pos rfl, List.getElem?_eq_getElem ha] at hx
      have hx' : x = if b ∈ c.edges[a] then c.edges[a] else c.edges[a] ++ [b] := by
        simpa using hx.symm
      subst hx'
      have hbx : b ∈ (if b ∈ c.edges[a] then c.edges[a] else c.edges[a] ++ [b]) := by
        by_cases hbl : b ∈ c.edges[a] <;> simp [hbl]
      simp [hbx]
    simp [Collection.add_edge, key]
  · rw [add_edge_edgesAt_self c a b ha]
    by_cases hbl : b ∈ c.edgesAt a
    · rw [if_pos hbl]
      exact List.count_eq_one_of_mem hnd hbl
    · rw [if_neg hbl]
      simp [List.count_append, List.count_eq_zero.mpr hbl]

/-- C5 witness: concrete valid Ids on a one-node collection. -/
theorem c5_witness :
    (cOne.add_edge 0 0).add_edge 0 0 = cOne.add_edge 0 0 ∧
    ((cOne.add_edge 0 0).edgesAt 0).count 0 = 1 :=
  c5_add_edge_idempotent cOne 0 0 (by decide) (by decide) (by decide)

/-- C6: merging an entity whose URL is already present at Id `i` returns `i`,
leaves the node count, the edges array and the URL index unchanged, rewrites
node `i` to `nodes[i].merge(entity)`, and leaves every other node unchanged
(the list with position `i` removed is equal before and after). -/
theorem c6_merge_existing (c : Collection) (e : Entity) (i : Nat)
    (h : Collection.id c e.url = some i) (hi : i < c.nodes.length) :
    (c.merge e).2 = i ∧
    (c.merge e).1.nodes.length = c.nodes.length ∧
    (c.merge e).1.edges = c.edges ∧
    (c.merge e).1.urls = c.urls ∧
    (c.merge e).1.nodes[i]? = (c.nodes[i]?).map (fun old => old.merge e) ∧
    (c.merge e).1.nodes.eraseIdx i = c.nodes.eraseIdx i := by
  have h' : lookupUrl c.urls e.url = some i := h
  refine ⟨?_, ?_, ?_, ?_, ?_, ?_⟩ <;>
    simp [Collection.merge, h', modifyAt_length, modifyAt_getElem?,
      modifyAt_eraseIdx]

/-- C6 witness: re-merging `entA` into the one-node collection holding it. -/
theorem c6_witness :
    (cOne.merge entA).2 = 0 ∧
    (cOne.merge entA).1.nodes.length = cOne.nodes.length ∧
    (cOne.merge entA).1.edges = cOne.edges ∧
    (cOne.merge entA).1.urls = cOne.urls ∧
    (cOne.merge entA).1.nodes[0]? =
      (cOne.nodes[0]?).map (fun old => old.merge entA) ∧
    (cOne.merge entA).1.nodes.eraseIdx 0 = cOne.nodes.eraseIdx 0 :=
  c6_merge_existing cOne entA 0 (by decide) (by decide)

/-- C8: adding an entity with a fresh URL makes `contains` true and points
the URL index at the returned Id; a first-time `merge` is the same call as
`add`. -/
theorem c8_fresh_url (c : Collection) (e : Entity)
    (h : Collection.id c e.url = none) :
    (c.add e).1.contains e.url = true ∧
    (c.add e).1.id e.url = some (c.add e).2 ∧
    c.merge e = c.add e := by
  have h' : lookupUrl c.urls e.url = none := h
  refine ⟨?_, ?_, ?_⟩
  · simp [Collection.add, Collection.contains, Collection.id, lookupUrl]
  · simp [Collection.add, Collection.id, lookupUrl]
  · simp [Collection.merge, h']

/-- C8 witness: adding the fresh URL "b" to the one-node collection. -/
theorem c8_witness :
    (cOne.add entB).1.contains entB.url = true ∧
    (cOne.add entB).1.id entB.url = some (cOne.add entB).2 ∧
    cOne.merge entB = cOne.add entB :=
  c8_fresh_url cOne entB (by decide)

/-- C10: calling `add` for a URL already present at Id `i` appends a fresh
node with Id `j = old len()`, re-points the URL index to `j` (so `i` is no
longer reachable through it), grows the node count by one, and keeps the old
entity stored at Id `i`. -/
theorem c10_add_existing (c : Collection) (e : Entity) (i : Nat)
    (h : Collection.id c e.url = some i) (hi : i < c.nodes.length) :
    (c.add e).2 = c.nodes.length ∧
    (c.add e).1.id e.url = some (c.add e).2 ∧
    i < (c.add e).2 ∧
    (c.add e).1.nodes.length = c.nodes.length + 1 ∧
    (c.add e).1.nodes[i]? = c.nodes[i]? := by
  refine ⟨rfl, ?_, hi, by simp [Collection.add], ?_⟩
  · simp [Collection.add, Collection.id, lookupUrl]
  · simp [Collection.add, List.getElem?_append, hi]

/-- C10 witness: duplicate `add` of `entA` into the collection holding it. -/
theorem c10_witness :
    (cOne.add entA).2 = cOne.nodes.length ∧
    (cOne.add entA).1.id entA.url = some (cOne.add entA).2 ∧
    0 < (cOne.add entA).2 ∧
    (cOne.add entA).1.nodes.length = cOne.nodes.length + 1 ∧
    (cOne.add entA).1.nodes[0]? = cOne.nodes[0]? :=
  c10_add_existing cOne entA 0 (by decide) (by decide)

/-! ### Trace lemmas: node-count evolution, allocation Ids, length invariant -/

theorem step_add_pos {c : Collection} {e : Entity}
    (hok : c.nodes.length = c.edges.length) :
    step c (Op.add e) = some (c.add e).1 := by
  simp [step, hok]

theorem step_add_neg {c : Collection} {e : Entity}
    (hok : ¬ c.nodes.length = c.edges.length) :
    step c (Op.add e) = none := by
  simp [step, hok]

theorem step_merge_some_pos {c : Collection} {e : Entity} {i : Nat}
    (hl : lookupUrl c.urls e.url = some i) (hi : i < c.nodes.length) :
    step c (Op.merge e) = some (c.merge e).1 := by
  simp [step, hl, hi]

theorem step_merge_some_neg {c : Collection} {e : Entity} {i : Nat}
    (hl : lookupUrl c.urls e.url = some i) (hi : ¬ i < c.nodes.length) :
    step c (Op.merge e) = none := by
  simp [step, hl, hi]

theorem step_merge_none_pos {c : Collection} {e : Entity}
    (hl : lookupUrl c.urls e.url = none)
    (hok : c.nodes.length = c.edges.length) :
    step c (Op.merge e) = some (c.add e).1 := by
  simp [step, hl, hok]

theorem step_merge_none_neg {c : Collection} {e : Entity}
    (hl : lookupUrl c.urls e.url = none)
    (hok : ¬ c.nodes.length = c.edges.length) :
    step c (Op.merge e) = none := by
  simp [step, hl, hok]

theorem step_add_edge_pos {c : Collection} {f t : Nat}
    (hf : f < c.edges.length) :
    step c (Op.add_edge f t) = some (c.add_edge f t) := by
  simp [step, hf]

theorem step_add_edge_neg {c : Collection} {f t : Nat}
    (hf : ¬ f < c.edges.length) :
    step c (Op.add_edge f t) = none := by
  simp [step, hf]

theorem step_setEntity_pos {c : Collection} {i : Nat} {e : Entity}
    (hi : i < c.nodes.length) :
    step c (Op.setEntity i e) =
      some { nodes := c.nodes.set i e, edges := c.edges, urls := c.urls } := by
  simp [step, hi]

theorem step_setEntity_neg {c : Collection} {i : Nat} {e : Entity}
    (hi : ¬ i < c.nodes.length) :
    step c (Op.setEntity i e) = none := by
  simp [step, hi]

theorem step_nodes_length {c c' : Collection} {op : Op}
    (h : step c op = some c') :
    c'.nodes.length = c.nodes.length + (allocIds c op).length := by
  cases op with
  | add e =>
    by_cases hok : c.nodes.length = c.edges.length
    · rw [step_add_pos hok] at h
      obtain rfl := Option.some.inj h
      simp [Collection.add, allocIds]
    · rw [step_add_neg hok] at h
      cases h
  | merge e =>
    cases hl : lookupUrl c.urls e.url with
    | some i =>
      by_cases hi : i < c.nodes.length
      · rw [step_merge_some_pos hl hi] at h
        obtain rfl := Option.some.inj h
        simp [Collection.merge, hl, modifyAt_length, allocIds]
      · rw [step_merge_some_neg hl hi] at h
        cases h
    | none =>
      by_cases hok : c.nodes.length = c.edges.length
      · rw [step_merge_none_pos hl hok] at h
        obtain rfl := Option.some.inj h
        simp [Collection.add, allocIds, hl]
      · rw [step_merge_none_neg hl hok] at h
        cases h
  | add_edge f t =>
    by_cases hf : f < c.edges.length
    · rw [step_add_edge_pos hf] at h
      obtain rfl := Option.some.inj h
      simp [Collection.add_edge, allocIds]
    · rw [step_add_edge_neg hf] at h
      cases h
  | setEntity i e =>
    by_cases hi : i < c.nodes.length
    · rw [step_setEntity_pos hi] at h
      obtain rfl := Option.some.inj h
      simp [allocIds]
    · rw [step_setEntity_neg hi] at h
      cases h

theorem allocIds_eq_range' (c : Collection) (op : Op) :
    allocIds c op = List.range' c.nodes.length (allocIds c op).length := by
  cases op with
  | add e => rfl
  | merge e =>
    cases hl : lookupUrl c.urls e.url <;> simp [allocIds, hl]
  | add_edge f t => rfl
  | setEntity i e => rfl

theorem runAlloc_ids (ops : List Op) :
    ∀ c cf : Collection, ∀ ids : List Nat,
      runAlloc c ops = some (cf, ids) →
      ids = List.range' c.nodes.length (cf.nodes.length - c.nodes.length) ∧
      c.nodes.length ≤ cf.nodes.length := by
  induction ops with
  | nil =>
    intro c cf ids h
    simp only [runAlloc] at h
    obtain ⟨rfl, rfl⟩ := Prod.mk.injEq _ _ _ _ ▸ Option.some.inj h
    simp
  | cons op ops ih =>
    intro c cf ids h
    cases hs : step c op with
    | none => simp [runAlloc, hs] at h
    | some c1 =>
      cases hr : runAlloc c1 ops with
      | none => simp [runAlloc, hs, hr] at h
      | some p =>
        obtain ⟨cf', ids'⟩ := p
        simp only [runAlloc, hs, hr] at h
        obtain ⟨h1, h2⟩ := Prod.mk.injEq _ _ _ _ ▸ Option.some.inj h
        obtain ⟨hids, hle⟩ := ih c1 cf' ids' hr
        have hlen := step_nodes_length hs
        constructor
        · rw [← h1, ← h2, hids, allocIds_eq_range' c op]
          have hsplit :
              List.range' c.nodes.length (allocIds c op).length ++
                List.range' (c.nodes.length + (allocIds c op).length)
                  (cf'.nodes.length - c1.nodes.length) =
              List.range' c.nodes.length
                (cf'.nodes.length - c1.nodes.length +
                  (allocIds c op).length) :=
            List.range'_append_1 _ _ _
          rw [← hlen] at hsplit
          rw [hsplit]
          congr 1
          omega
        · rw [← h1]
          omega

/-- C7: Ids are dense and monotone. Along any successful run from
`Collection::new()`, the Ids returned by `add` and first-sight `merge`
calls, in call order, are exactly `0, 1, 2, …` up to the final node count —
each allocation returns the next storage slot and no Id is ever reused —
and `add` stores the entity at exactly the returned slot. -/
theorem c7_dense_monotone_ids (ops : List Op) (cf : Collection)
    (ids : List Nat) (c : Collection) (e : Entity)
    (h : runAlloc Collection.new ops = some (cf, ids)) :
    ids = List.range cf.len ∧
    (c.add e).1.nodes[(c.add e).2]? = some e := by
  constructor
  · obtain ⟨hids, -⟩ := runAlloc_ids ops Collection.new cf ids h
    rw [hids, List.range_eq_range']
    rfl
  · simp [Collection.add]

/-- C7 witness: a concrete run with two allocations, one repeat-sight merge
and one edge insertion returns Ids `[0, 1] = range 2`. -/
theorem c7_witness :
    ([0, 1] : List Nat) =
      List.range (Collection.len
        { nodes := [entA,
            { url := "b", created_at := 1, updated_at := {1},
              names := ∅, labels := ∅ }],
          edges := [[1], []], urls := [("b", 1), ("a", 0)] }) ∧
    (cOne.add entB).1.nodes[(cOne.add entB).2]? = some entB :=
  c7_dense_monotone_ids
    [Op.add entA, Op.merge entB, Op.merge entB, Op.add_edge 0 1]
    { nodes := [entA,
        { url := "b", created_at := 1, updated_at := {1},
          names := ∅, labels := ∅ }],
      edges := [[1], []], urls := [("b", 1), ("a", 0)] }
    [0, 1] cOne entB (by decide)

theorem step_lenOk {c c' : Collection} {op : Op} (h : step c op = some c')
    (hok : c.lenOk) : c'.lenOk := by
  cases op with
  | add e =>
    rw [step_add_pos hok] at h
    obtain rfl := Option.some.inj h
    simp only [Collection.lenOk, Collection.add] at hok ⊢
    simp
    omega
  | merge e =>
    cases hl : lookupUrl c.urls e.url with
    | some i =>
      by_cases hi : i < c.nodes.length
      · rw [step_merge_some_pos hl hi] at h
        obtain rfl := Option.some.inj h
        simpa [Collection.lenOk, Collection.merge, hl, modifyAt_length]
          using hok
      · rw [step_merge_some_neg hl hi] at h
        cases h
    | none =>
      rw [step_merge_none_pos hl hok] at h
      obtain rfl := Option.some.inj h
      simp only [Collection.lenOk, Collection.add] at hok ⊢
      simp
      omega
  | add_edge f t =>
    by_cases hf : f < c.edges.length
    · rw [step_add_edge_pos hf] at h
      obtain rfl := Option.some.inj h
      simpa [Collection.lenOk, Collection.add_edge, modifyAt_length] using hok
    · rw [step_add_edge_neg hf] at h
      cases h
  | setEntity i e =>
    by_cases hi : i < c.nodes.length
    · rw [step_setEntity_pos hi] at h
      obtain rfl := Option.some.inj h
      simpa [Collection.lenOk] using hok
    · rw [step_setEntity_neg hi] at h
      cases h

theorem runOps_lenOk (ops : List Op) :
    ∀ c c' : Collection, runOps c ops = some c' → c.lenOk → c'.lenOk := by
  induction ops with
  | nil =>
    intro c c' h hok
    simp only [runOps] at h
    obtain rfl := Option.some.inj h
    exact hok
  | cons op ops ih =>
    intro c c' h hok
    cases hs : step c op with
    | none => simp [runOps, hs] at h
    | some c1 =>
      simp only [runOps, hs] at h
      exact ih c1 c' h (step_lenOk hs hok)

/-- Every collection reachable from `Collection::new()` by a non-panicking
sequence of public operations has `len(nodes) == len(edges)`. -/
theorem reachable_lenOk (c : Collection) (h : Reachable c) : c.lenOk := by
  obtain ⟨ops, hops⟩ := h
  exact runOps_lenOk ops Collection.new c hops rfl

/-- C9: the claimed invariant `len(nodes) == len(edges)` does hold on every
reachable collection (see `reachable_lenOk`), and `len()`'s `assert_eq!`
therefore never fails there — but the code of `is_empty()` runs
`assert!(self.edges.is_empty())` unconditionally instead of the intended
consistency check, so `is_empty()` still aborts on every non-empty
reachable collection.  Concretely: `cOne`, reached by one `add` from
`new()`, satisfies the length invariant (both lengths are 1), yet calling
`is_empty()` on it panics. -/
theorem c9_is_empty_assert_fails :
    Reachable cOne ∧ Collection.lenOk cOne ∧
    Collection.is_empty cOne = none :=
  ⟨⟨[Op.add entA], by decide⟩, rfl, by decide⟩

/-! ### Adjacency-list invariant -/

theorem stepV_adjInv {c c' : Collection} {op : Op} (h : stepV c op = some c')
    (hinv : AdjInv c) : AdjInv c' := by
  cases op with
  | add e =>
    have h' : step c (Op.add e) = some c' := h
    by_cases hok : c.nodes.length = c.edges.length
    · rw [step_add_pos hok] at h'
      obtain rfl := Option.some.inj h'
      intro l hl
      simp only [Collection.add] at hl ⊢
      rcases List.mem_append.mp hl with hmem | hmem
      · obtain ⟨hnd, hbound⟩ := hinv l hmem
        refine ⟨hnd, fun j hj => ?_⟩
        have := hbound j hj
        simp only [List.length_append, List.length_singleton]
        omega
      · simp only [List.mem_singleton] at hmem
        subst hmem
        simp
    · rw [step_add_neg hok] at h'
      cases h'
  | merge e =>
    have h' : step c (Op.merge e) = some c' := h
    cases hl : lookupUrl c.urls e.url with
    | some i =>
      by_cases hi : i < c.nodes.length
      · rw [step_merge_some_pos hl hi] at h'
        obtain rfl := Option.some.inj h'
        intro l hmem
        simp only [Collection.merge, hl] at hmem ⊢
        obtain ⟨hnd, hbound⟩ := hinv l hmem
        refine ⟨hnd, fun j hj => ?_⟩
        have := hbound j hj
        simpa [modifyAt_length] using this
      · rw [step_merge_some_neg hl hi] at h'
        cases h'
    | none =>
      by_cases hok : c.nodes.length = c.edges.length
      · rw [step_merge_none_pos hl hok] at h'
        obtain rfl := Option.some.inj h'
        intro l hmem
        simp only [Collection.add] at hmem ⊢
        rcases List.mem_append.mp hmem with hmem' | hmem'
        · obtain ⟨hnd, hbound⟩ := hinv l hmem'
          refine ⟨hnd, fun j hj => ?_⟩
          have := hbound j hj
          simp only [List.length_append, List.length_singleton]
          omega
        · simp only [List.mem_singleton] at hmem'
          subst hmem'
          simp
      · rw [step_merge_none_neg hl hok] at h'
        cases h'
  | add_edge f t =>
    by_cases hc : f < c.edges.length ∧ t < c.nodes.length
    · have h' : c' = c.add_edge f t := by
        simp only [stepV, if_pos hc] at h
        exact (Option.some.inj h).symm
      subst h'
      intro l hmem
      simp only [Collection.add_edge] at hmem ⊢
      rcases mem_modifyAt hmem with hmem' | ⟨y, hy, hly⟩
      · exact hinv l hmem'
      · obtain ⟨hnd, hbound⟩ := hinv y hy
        subst hly
        by_cases hty : t ∈ y
        · simpa [hty] using ⟨hnd, hbound⟩
        · rw [if_neg hty]
          constructor
          · simp [List.nodup_append, hnd, hty]
          · intro j hj
            rcases List.mem_append.mp hj with hj' | hj'
            · exact hbound j hj'
            · simp only [List.mem_singleton] at hj'
              subst hj'
              exact hc.2
    · simp only [stepV, if_neg hc] at h
      cases h
  | setEntity i e =>
    have h' : step c (Op.setEntity i e) = some c' := h
    by_cases hi : i < c.nodes.length
    · rw [step_setEntity_pos hi] at h'
      obtain rfl := Option.some.inj h'
      intro l hmem
      obtain ⟨hnd, hbound⟩ := hinv l hmem
      refine ⟨hnd, fun j hj => ?_⟩
      have := hbound j hj
      simpa using this
    · rw [step_setEntity_neg hi] at h'
      cases h'

theorem runV_adjInv (ops : List Op) :
    ∀ c c' : Collection, runV c ops = some c' → AdjInv c → AdjInv c' := by
  induction ops with
  | nil =>
    intro c c' h hinv
    simp only [runV] at h
    obtain rfl := Option.some.inj h
    exact hinv
  | cons op ops ih =>
    intro c c' h hinv
    cases hs : stepV c op with
    | none => simp [runV, hs] at h
    | some c1 =>
      simp only [runV, hs] at h
      exact ih c1 c' h (stepV_adjInv hs hinv)

/-- C4: counterexample. The claim quantifies over all non-panicking
sequences of public operations, but `add_edge(0, 5)` on a one-node
collection completes without panicking (Id 5 is never range-checked) and
leaves `5` in an adjacency list even though `5 ≥ len(nodes) = 1`, so the
in-range half of the claimed invariant is false as stated. -/
theorem c4_counterexample :
    runOps Collection.new [Op.add entA, Op.add_edge 0 5] =
      some { nodes := [entA], edges := [[5]], urls := [("a", 0)] } ∧
    ¬ AdjInv { nodes := [entA], edges := [[5]], urls := [("a", 0)] } := by
  constructor
  · decide
  · intro hinv
    have h5 := (hinv [5] (by simp)).2 5 (by simp)
    simp at h5

/-- C4 (amended): in every collection reachable from `Collection::new()` by
non-panicking public operations in which each `add_edge` call received a
`to` that was a valid Id at call time (`to < len(nodes)` — the code itself
never checks this), every Id in every adjacency list is `< len(nodes)` and
every adjacency list is duplicate-free. -/
theorem c4_adjacency_invariant (c : Collection) (h : ReachableV c) :
    AdjInv c := by
  obtain ⟨ops, hops⟩ := h
  refine runV_adjInv ops Collection.new c hops ?_
  intro l hl
  cases hl

/-- C4 (amended) witness: a concrete valid-`to` run. -/
theorem c4_witness :
    AdjInv { nodes := [entA], edges := [[0]], urls := [("a", 0)] } :=
  c4_adjacency_invariant _ ⟨[Op.add entA, Op.add_edge 0 0], by decide⟩

/-! ### Entity.update: component lemmas -/

theorem entity_ext {a b : Entity} (h1 : a.url = b.url)
    (h2 : a.created_at = b.created_at) (h3 : a.updated_at = b.updated_at)
    (h4 : a.names = b.names) (h5 : a.labels = b.labels) : a = b := by
  cases a
  cases b
  simp_all

theorem update_url (e : Entity) (d : Nat) (ns : Finset String)
    (ls : Finset String) : (e.update d ns ls).url = e.url := by
  unfold Entity.update
  split <;> rfl

theorem update_created (e : Entity) (d : Nat) (ns : Finset String)
    (ls : Finset String) :
    (e.update d ns ls).created_at = min e.created_at d := by
  unfold Entity.update
  by_cases h : d < e.created_at
  · rw [if_pos h]
    exact (min_eq_right (Nat.le_of_lt h)).symm
  · rw [if_neg h]
    exact (min_eq_left (Nat.le_of_not_lt h)).symm

theorem update_names (e : Entity) (d : Nat) (ns : Finset String)
    (ls : Finset String) : (e.update d ns ls).names = e.names ∪ ns := by
  unfold Entity.update
  split <;> rfl

theorem update_labels (e : Entity) (d : Nat) (ns : Finset String)
    (ls : Finset String) : (e.update d ns ls).labels = e.labels ∪ ls := by
  unfold Entity.update
  split <;> rfl

theorem update_ua_lt {e : Entity} {d : Nat} (ns : Finset String)
    (ls : Finset String) (h : d < e.created_at) :
    (e.update d ns ls).updated_at = insert e.created_at e.updated_at := by
  unfold Entity.update
  rw [if_pos h]

theorem update_ua_ge {e : Entity} {d : Nat} (ns : Finset String)
    (ls : Finset String) (h : ¬ d < e.created_at) :
    (e.update d ns ls).updated_at = insert d e.updated_at := by
  unfold Entity.update
  rw [if_neg h]

/-! ### minD / countD / uaGain lemmas -/

theorem minD_cons (ca d : Nat) (ds : List Nat) :
    minD ca (d :: ds) = minD (min ca d) ds := rfl

theorem minD_le_left (ca : Nat) (ds : List Nat) : minD ca ds ≤ ca := by
  induction ds generalizing ca with
  | nil => exact Nat.le_refl ca
  | cons d ds ih =>
    rw [minD_cons]
    exact Nat.le_trans (ih (min ca d)) (Nat.min_le_left ca d)

theorem countD_cons (x d : Nat) (ds : List Nat) :
    countD x (d :: ds) = (if d = x then 1 else 0) + countD x ds := rfl

theorem uaGain_nil (ca : Nat) : uaGain ca [] = ∅ := by
  simp [uaGain, countD, minD]

theorem erase_subset_uaGain (ca : Nat) (ds : List Nat) :
    ((ca :: ds).toFinset).erase (minD ca ds) ⊆ uaGain ca ds := by
  unfold uaGain
  split
  · exact Finset.erase_subset _ _
  · exact Finset.Subset.refl _

theorem uaGain_subset (ca : Nat) (ds : List Nat) :
    uaGain ca ds ⊆ (ca :: ds).toFinset := by
  unfold uaGain
  split
  · exact Finset.Subset.refl _
  · exact Finset.erase_subset _ _

theorem uaGain_cons_lt {ca d : Nat} (ds : List Nat) (h : d < ca) :
    uaGain ca (d :: ds) = insert ca (uaGain d ds) := by
  have hmin : minD ca (d :: ds) = minD d ds := by
    rw [minD_cons, min_eq_right (Nat.le_of_lt h)]
  have hm_le : minD d ds ≤ d := minD_le_left d ds
  have hne : ca ≠ minD d ds := by omega
  have hcount : countD (minD d ds) (ca :: d :: ds) =
      countD (minD d ds) (d :: ds) := by
    rw [countD_cons, if_neg hne]
    simp
  unfold uaGain
  rw [hmin, hcount]
  by_cases hdup : 2 ≤ countD (minD d ds) (d :: ds)
  · rw [if_pos hdup, if_pos hdup, List.toFinset_cons]
  · rw [if_neg hdup, if_neg hdup, List.toFinset_cons,
      Finset.erase_insert_of_ne hne]

theorem uaGain_cons_ge {ca d : Nat} (ds : List Nat) (h : ca ≤ d) :
    uaGain ca (d :: ds) = insert d (uaGain ca ds) := by
  have hmin : minD ca (d :: ds) = minD ca ds := by
    rw [minD_cons, min_eq_left h]
  have hm_le : minD ca ds ≤ ca := minD_le_left ca ds
  unfold uaGain
  rw [hmin]
  rcases Nat.lt_or_ge (minD ca ds) d with hlt | hge
  · have hd : d ≠ minD ca ds := by omega
    have hcount : countD (minD ca ds) (ca :: d :: ds) =
        countD (minD ca ds) (ca :: ds) := by
      simp [countD_cons, hd]
    by_cases hdup : 2 ≤ countD (minD ca ds) (ca :: ds)
    · rw [hcount, if_pos hdup, if_pos hdup]
      simp only [List.toFinset_cons]
      ext x
      simp only [Finset.mem_insert]
      tauto
    · rw [hcount, if_neg hdup, if_neg hdup]
      simp only [List.toFinset_cons]
      ext x
      by_cases hx : x = minD ca ds
      · subst hx
        have hmd : ¬ (minD ca ds = d) := Ne.symm hd
        simp only [Finset.mem_insert, Finset.mem_erase, ne_eq]
        tauto
      · simp only [Finset.mem_insert, Finset.mem_erase, ne_eq, hx]
        simp only [not_false_iff, true_and]
        tauto
  · have hca : ca = d := by omega
    subst hca
    have heq : minD ca ds = ca := by omega
    rw [heq]
    have h1 : countD ca (ca :: ca :: ds) = 2 + countD ca ds := by
      simp [countD_cons]
      omega
    have h2 : countD ca (ca :: ds) = 1 + countD ca ds := by
      simp [countD_cons]
    rw [if_pos (by omega : 2 ≤ countD ca (ca :: ca :: ds))]
    by_cases hdup : 2 ≤ countD ca (ca :: ds)
    · rw [if_pos hdup]
      apply Finset.ext
      intro x
      simp only [List.toFinset_cons, Finset.mem_insert]
    · rw [if_neg hdup]
      apply Finset.ext
      intro x
      simp only [List.toFinset_cons, Finset.mem_insert, Finset.mem_erase,
        ne_eq]
      tauto

/-! ### Folding observations through Entity.update -/

theorem updFold_cons (e : Entity) (o : Obs) (os : List Obs) :
    updFold e (o :: os) = updFold (e.update o.1 o.2.1 o.2.2) os := rfl

theorem updFold_url (os : List Obs) (e : Entity) :
    (updFold e os).url = e.url := by
  induction os generalizing e with
  | nil => rfl
  | cons o os ih => rw [updFold_cons, ih, update_url]

theorem updFold_created (os : List Obs) (e : Entity) :
    (updFold e os).created_at = minD e.created_at (os.map (fun x => x.1)) := by
  induction os generalizing e with
  | nil => rfl
  | cons o os ih =>
    rw [updFold_cons, ih, update_created, List.map_cons, minD_cons]

theorem updFold_names (os : List Obs) (e : Entity) :
    (updFold e os).names = e.names ∪ namesUnion os := by
  induction os generalizing e with
  | nil => simp [updFold, namesUnion]
  | cons o os ih =>
    rw [updFold_cons, ih, update_names,
      show namesUnion (o :: os) = o.2.1 ∪ namesUnion os from rfl,
      Finset.union_assoc]

theorem updFold_labels (os : List Obs) (e : Entity) :
    (updFold e os).labels = e.labels ∪ labelsUnion os := by
  induction os generalizing e with
  | nil => simp [updFold, labelsUnion]
  | cons o os ih =>
    rw [updFold_cons, ih, update_labels,
      show labelsUnion (o :: os) = o.2.2 ∪ labelsUnion os from rfl,
      Finset.union_assoc]

theorem updFold_ua (os : List Obs) (e : Entity) :
    (updFold e os).updated_at =
      e.updated_at ∪ uaGain e.created_at (os.map (fun x => x.1)) := by
  induction os generalizing e with
  | nil => simp [updFold, uaGain_nil]
  | cons o os ih =>
    rw [updFold_cons, ih, List.map_cons]
    by_cases h : o.1 < e.created_at
    · rw [update_ua_lt _ _ h, update_created,
        min_eq_right (Nat.le_of_lt h), uaGain_cons_lt _ h,
        Finset.insert_union, Finset.union_insert]
    · rw [update_ua_ge _ _ h, update_created,
        min_eq_left (Nat.le_of_not_lt h),
        uaGain_cons_ge _ (Nat.le_of_not_lt h),
        Finset.insert_union, Finset.union_insert]

theorem mergeAll_one (u : String) (os : List Obs) (E : Entity) :
    mergeAll { nodes := [E], edges := [[]], urls := [(u, 0)] } u os =
      { nodes := [updFold E os], edges := [[]], urls := [(u, 0)] } := by
  induction os generalizing E with
  | nil => rfl
  | cons o os ih =>
    have hstep :
        (Collection.merge { nodes := [E], edges := [[]], urls := [(u, 0)] }
          (obsEntity u o)).1 =
        { nodes := [E.update o.1 o.2.1 o.2.2], edges := [[]],
          urls := [(u, 0)] } := by
      simp [Collection.merge, lookupUrl, obsEntity, modifyAt, Entity.merge]
    rw [show mergeAll { nodes := [E], edges := [[]], urls := [(u, 0)] } u
          (o :: os) =
        mergeAll (Collection.merge
          { nodes := [E], edges := [[]], urls := [(u, 0)] }
          (obsEntity u o)).1 u os from rfl, hstep]
    exact ih (E.update o.1 o.2.1 o.2.2)

/-- C1: counterexample. Two merges of the same URL with the same date `0`
leave `updated_at = {0}`, while the claim's formula `{d1, d2} \ {min}`
is the empty set — the claim fails when the minimum date is observed more
than once. -/
theorem c1_counterexample :
    (mergeAll Collection.new "a" [(0, ∅, ∅), (0, ∅, ∅)]).nodes.map
        Entity.updated_at = [{0}] ∧
    ({0} : Finset Nat) ≠
      (insert 0 (insert 0 (∅ : Finset Nat))).erase 0 := by
  exact ⟨by decide, by decide⟩

/-- C1 (amended): merging a same-URL observation sequence with dates
`d1 :: ds` from an empty collection stores one node whose `created_at` is
`min(d1..dn)`, whose `names`/`labels` are the unions across all
observations, and whose `updated_at` is `uaGain d1 ds`: the set of all
observed dates minus the minimum when the minimum is observed exactly once,
and including the minimum (hence equal to the whole observed set) when the
minimum is observed at least twice. -/
theorem c1_merge_fold (u : String) (o : Obs) (os : List Obs) :
    mergeAll Collection.new u (o :: os) =
      { nodes := [{ url := u,
                    created_at := minD o.1 (os.map (fun x => x.1)),
                    updated_at := uaGain o.1 (os.map (fun x => x.1)),
                    names := o.2.1 ∪ namesUnion os,
                    labels := o.2.2 ∪ labelsUnion os }],
        edges := [[]], urls := [(u, 0)] } := by
  have h0 : (Collection.merge Collection.new (obsEntity u o)).1 =
      { nodes := [obsEntity u o], edges := [[]], urls := [(u, 0)] } := by
    simp [Collection.merge, Collection.new, lookupUrl, Collection.add,
      obsEntity]
  rw [show mergeAll Collection.new u (o :: os) =
      mergeAll (Collection.merge Collection.new (obsEntity u o)).1 u os
      from rfl, h0, mergeAll_one]
  have hE : updFold (obsEntity u o) os =
      { url := u, created_at := minD o.1 (os.map (fun x => x.1)),
        updated_at := uaGain o.1 (os.map (fun x => x.1)),
        names := o.2.1 ∪ namesUnion os,
        labels := o.2.2 ∪ labelsUnion os } := by
    apply entity_ext
    · exact updFold_url os _
    · exact updFold_created os _
    · rw [updFold_ua os]
      simp [obsEntity]
    · exact updFold_names os _
    · exact updFold_labels os _
  rw [hE]

/-- C2: counterexample. Updating an entity with a date equal to its current
`created_at` inserts that very date into `updated_at` (the `else` branch of
`Entity::update` has no equality check), so `updated_at` can contain
`created_at`. -/
theorem c2_counterexample :
    ((Entity.new "a" 0 none ∅).update 0 ∅ ∅).created_at ∈
      ((Entity.new "a" 0 none ∅).update 0 ∅ ∅).updated_at := by
  decide

/-- C2 (amended): after any update sequence applied to a freshly constructed
entity, `created_at` is the minimum of every observed date, every observed
date other than `created_at` is in `updated_at`, and `updated_at` contains
only observed dates; but `updated_at` is exactly `uaGain`, which includes
`created_at` itself precisely when the minimal date was observed at least
twice. -/
theorem c2_created_min_invariant (u : String) (d : Nat) (mn : Option String)
    (ls : Finset String) (os : List Obs) :
    (updFold (Entity.new u d mn ls) os).created_at =
      minD d (os.map (fun x => x.1)) ∧
    (updFold (Entity.new u d mn ls) os).updated_at =
      uaGain d (os.map (fun x => x.1)) ∧
    ((d :: os.map (fun x => x.1)).toFinset).erase
        (minD d (os.map (fun x => x.1))) ⊆
      (updFold (Entity.new u d mn ls) os).updated_at ∧
    (updFold (Entity.new u d mn ls) os).updated_at ⊆
      (d :: os.map (fun x => x.1)).toFinset := by
  have hca : (updFold (Entity.new u d mn ls) os).created_at =
      minD d (os.map (fun x => x.1)) := updFold_created os _
  have hua : (updFold (Entity.new u d mn ls) os).updated_at =
      uaGain d (os.map (fun x => x.1)) := by
    rw [updFold_ua os]
    simp [Entity.new]
  refine ⟨hca, hua, ?_, ?_⟩
  · rw [hua]
    exact erase_subset_uaGain _ _
  · rw [hua]
    exact uaGain_subset _ _
